import Mathlib

/-!
# Verification of the Tor guard-prediction core pipeline

Shallow embedding of the feature-engineering, top-K extraction, evaluation
and explainability code of the repository (scripts/prepare_features.py,
scripts/predict_guard.py, scripts/train_xgboost.py, backend/main.py),
with theorems settling the specification claims.

Numeric values (Python floats) are modelled as rationals; fallible Python
operations (exceptions) are modelled with `Option`.
-/

namespace TorGuard

/-! ## Top-K extraction

`np.argsort(probabilities[i])[::-1][:k]` appears in
`backend/main.py:get_top_k_predictions`, `scripts/predict_guard.py:
predict_top_k_guards` and `scripts/train_xgboost.py:calculate_mrr`.
`np.argsort` sorts indices ascending by value; on ties it keeps the
original (ascending) index order (numpy's sort is stable on the small
inputs in play, and this is its deterministic behaviour there).  We bake
the tie order into a total order on indices so the sorted result is
algorithm-independent. -/

/-- The total order `np.argsort` realises on indices of `p`:
by value ascending, ties by index ascending. -/
def argsortRel (p : List ℚ) (i j : ℕ) : Prop :=
  p.getD i 0 < p.getD j 0 ∨ (p.getD i 0 = p.getD j 0 ∧ i ≤ j)

instance argsortRelDecidable (p : List ℚ) : DecidableRel (argsortRel p) := by
  intro i j
  unfold argsortRel
  infer_instance

instance argsortRelTotal (p : List ℚ) : IsTotal ℕ (argsortRel p) := by
  constructor
  intro i j
  rcases lt_trichotomy (p.getD i 0) (p.getD j 0) with h | h | h
  · exact Or.inl (Or.inl h)
  · rcases Nat.le_total i j with hij | hij
    · exact Or.inl (Or.inr ⟨h, hij⟩)
    · exact Or.inr (Or.inr ⟨h.symm, hij⟩)
  · exact Or.inr (Or.inl h)

instance argsortRelTrans (p : List ℚ) : IsTrans ℕ (argsortRel p) := by
  constructor
  intro i j k hij hjk
  rcases hij with h1 | ⟨h1, hle1⟩
  · rcases hjk with h2 | ⟨h2, _⟩
    · exact Or.inl (h1.trans h2)
    · exact Or.inl (h2 ▸ h1)
  · rcases hjk with h2 | ⟨h2, hle2⟩
    · exact Or.inl (h1 ▸ h2)
    · exact Or.inr ⟨h1.trans h2, hle1.trans hle2⟩

/-- `np.argsort(p)`: the indices `0..len(p)-1` sorted ascending by value,
ties in ascending index order. -/
def argsort (p : List ℚ) : List ℕ :=
  List.insertionSort (argsortRel p) (List.range p.length)

/-- `np.argsort(p)[::-1]`: indices sorted descending by value. -/
def argsortDesc (p : List ℚ) : List ℕ :=
  (argsort p).reverse

/-- `np.argsort(p)[::-1][:k]` for a non-negative `k`: the top-k class
indices by probability. -/
def topK (p : List ℚ) (k : ℕ) : List ℕ :=
  (argsortDesc p).take k

theorem argsort_perm (p : List ℚ) :
    List.Perm (argsort p) (List.range p.length) :=
  List.perm_insertionSort _ _

theorem argsort_length (p : List ℚ) : (argsort p).length = p.length := by
  simpa using (argsort_perm p).length_eq

theorem mem_argsort {p : List ℚ} {i : ℕ} : i ∈ argsort p ↔ i < p.length := by
  rw [(argsort_perm p).mem_iff, List.mem_range]

theorem argsort_nodup (p : List ℚ) : (argsort p).Nodup :=
  ((argsort_perm p).nodup_iff).mpr (List.nodup_range _)

theorem argsort_sorted (p : List ℚ) :
    List.Sorted (argsortRel p) (argsort p) :=
  List.sorted_insertionSort _ _

theorem argsortDesc_pairwise (p : List ℚ) :
    List.Pairwise (fun i j => argsortRel p j i) (argsortDesc p) := by
  have h := argsort_sorted p
  unfold argsortDesc
  exact (List.pairwise_reverse).mpr h

theorem argsortDesc_length (p : List ℚ) :
    (argsortDesc p).length = p.length := by
  unfold argsortDesc
  rw [List.length_reverse, argsort_length]

theorem mem_argsortDesc {p : List ℚ} {i : ℕ} :
    i ∈ argsortDesc p ↔ i < p.length := by
  unfold argsortDesc
  rw [List.mem_reverse, mem_argsort]

theorem argsortDesc_nodup (p : List ℚ) : (argsortDesc p).Nodup := by
  unfold argsortDesc
  exact (List.nodup_reverse).mpr (argsort_nodup p)

theorem topK_length (p : List ℚ) (k : ℕ) :
    (topK p k).length = min k p.length := by
  unfold topK
  rw [List.length_take, argsortDesc_length]

theorem topK_pairwise (p : List ℚ) (k : ℕ) :
    List.Pairwise (fun i j => argsortRel p j i) (topK p k) :=
  (argsortDesc_pairwise p).sublist (List.take_sublist _ _)

theorem topK_nodup (p : List ℚ) (k : ℕ) : (topK p k).Nodup :=
  (argsortDesc_nodup p).sublist (List.take_sublist _ _)

/-- C2 helper: earlier entries of the extracted list carry probabilities
that are at least the later ones. -/
theorem topK_sorted_nonincreasing (p : List ℚ) (k : ℕ) :
    List.Pairwise (fun i j => p.getD j 0 ≤ p.getD i 0) (topK p k) := by
  refine (topK_pairwise p k).imp ?_
  intro i j h
  rcases h with h | ⟨h, _⟩
  · exact le_of_lt h
  · exact le_of_eq h

/-- C2 helper: ties are ordered by descending class index. -/
theorem topK_ties_descending (p : List ℚ) (k : ℕ) :
    List.Pairwise (fun i j => p.getD i 0 = p.getD j 0 → j < i) (topK p k) := by
  have hnd : List.Pairwise (fun i j => i ≠ j) (topK p k) := topK_nodup p k
  have hpw := topK_pairwise p k
  have := List.Pairwise.and hpw hnd
  refine this.imp ?_
  intro i j ⟨hrel, hne⟩ heq
  rcases hrel with h | ⟨_, hle⟩
  · exact absurd (heq ▸ h) (lt_irrefl _)
  · exact lt_of_le_of_ne hle (fun hji => hne hji.symm)

/-! ## Python slice semantics for arbitrary integer `k`

`get_top_k_predictions` (backend/main.py) and `predict_top_k_guards`
(scripts/predict_guard.py) take `k` as an arbitrary integer with no
validation; the slice `[:k]` then follows Python semantics: for `k ≥ 0`
it keeps the first `k` elements, for `k < 0` it keeps all but the last
`|k|`. -/

/-- Python `l[:k]` for an arbitrary integer `k`. -/
def pySliceTo {α : Type} (l : List α) (k : ℤ) : List α :=
  if 0 ≤ k then l.take k.toNat else l.take ((l.length : ℤ) + k).toNat

/-- `np.argsort(p)[::-1][:k]` with the raw integer `k` as the callers
pass it (no validation happens in the source). -/
def topKZ (p : List ℚ) (k : ℤ) : List ℕ :=
  pySliceTo (argsortDesc p) k

/-! ## Mean reciprocal rank (scripts/train_xgboost.py:calculate_mrr)

For each example the code takes the top-`k` indices, and if the true
label occurs there adds `1/rank` with `rank` the 1-based position of the
first occurrence (`np.where(...)[0][0] + 1`); finally it divides by
`len(y_true)`, which raises `ZeroDivisionError` on an empty label list —
modelled as `none`. -/

/-- Per-example reciprocal-rank contribution inside `calculate_mrr`. -/
def reciprocalRank (row : List ℚ) (k : ℕ) (label : ℕ) : ℚ :=
  if label ∈ topK row k then 1 / (((topK row k).indexOf label : ℚ) + 1) else 0

/-- `calculate_mrr(y_true, y_pred_proba, k)`.  The final
`mrr / len(y_true)` raises on an empty `y_true` (`none`). -/
def calculate_mrr (y : List ℕ) (P : List (List ℚ)) (k : ℕ) : Option ℚ :=
  if y = [] then none
  else some ((((y.zip P).map fun t => reciprocalRank t.2 k t.1).sum) / (y.length : ℚ))

/-! ## Top-1 accuracy (scripts/train_xgboost.py:evaluate_topk, k = 1)

For `k = 1` the code computes `np.argmax(row)` per example and the
`accuracy_score` (fraction of exact matches).  `np.argmax` returns the
index of the first occurrence of the maximum value. -/

/-- `np.argmax(row)`: index of the first occurrence of the maximum
(the call errors on an empty row; the branch below only feeds it
non-empty rows, and we return 0 there). -/
def argmax (row : List ℚ) : ℕ :=
  match row.max? with
  | none => 0
  | some v => row.indexOf v

/-- The `k = 1` branch of `evaluate_topk`: `accuracy_score(y_true,
np.argmax(y_pred_proba, axis=1))`, i.e. the fraction of examples whose
true label is the row argmax (`none` models the error on an empty
evaluation set). -/
def top1_accuracy (y : List ℕ) (P : List (List ℚ)) : Option ℚ :=
  if y = [] then none
  else some ((((y.zip P).countP fun t => argmax t.2 = t.1 : ℕ) : ℚ) / (y.length : ℚ))

/-- Spec-side comparison object for C6 (written from the spec's words,
not from the source): the fraction of examples whose true label is a
member of the top-`k` set extracted by the repository's top-K
extractor. -/
def membershipTopkAccuracy (y : List ℕ) (P : List (List ℚ)) (k : ℕ) : Option ℚ :=
  if y = [] then none
  else some ((((y.zip P).countP fun t => t.1 ∈ topK t.2 k : ℕ) : ℚ) / (y.length : ℚ))

/-- A row has a unique maximum at index `m`. -/
def UniqueMaxAt (row : List ℚ) (m : ℕ) : Prop :=
  m < row.length ∧ ∀ i < row.length, i ≠ m → row.getD i 0 < row.getD m 0

/-! ## Categorical encoding (sklearn `LabelEncoder` as the source uses it)

`prepare_features.py` fits a `LabelEncoder` per categorical column:
`classes_` is the lexically sorted list of distinct values,
`transform(v)` is the index of `v` in `classes_` and raises `ValueError`
on an unseen value (modelled as `none`), `inverse_transform(i)` returns
`classes_[i]`. -/

/-- `LabelEncoder.fit`: the sorted distinct values of the corpus. -/
def labelEncoderFit (values : List String) : List String :=
  List.insertionSort (fun a b => a ≤ b) values.dedup

/-- `LabelEncoder.transform` on a single value: raises (`none`) if the
value was not seen during fit. -/
def labelEncoderTransform (classes : List String) (v : String) : Option ℕ :=
  if v ∈ classes then some (classes.indexOf v) else none

/-- `LabelEncoder.inverse_transform` on a single index: raises (`none`)
out of range. -/
def labelEncoderInverse (classes : List String) (i : ℕ) : Option String :=
  classes.get? i

/-- The backend's encode step (backend/main.py lines 239-262): each
`transform` call is wrapped in `try/except` with fallback `-1`. -/
def backendEncode (classes : List String) (v : String) : ℤ :=
  match labelEncoderTransform classes v with
  | some i => (i : ℤ)
  | none => -1

/-! ## Bandwidth-ratio features, per code path (claim C1)

Training path `scripts/prepare_features.py:engineer_features` lines
22-24 and batch-inference path `scripts/predict_guard.py:
predict_top_k_guards` lines 52-54 use the stabilizer `+ 1`; the serving
path `backend/main.py:engineer_features` lines 213-215 uses `+ 1e-6`. -/

/-- Training-path bandwidth ratios (stabilizer `+ 1`). -/
def prepareBwRatios (g m e : ℚ) : ℚ × ℚ × ℚ :=
  (g / (m + 1), g / (e + 1), m / (e + 1))

/-- Serving-path bandwidth ratios (stabilizer `+ 1e-6`). -/
def backendBwRatios (g m e : ℚ) : ℚ × ℚ × ℚ :=
  (g / (m + 1 / 1000000), g / (e + 1 / 1000000), m / (e + 1 / 1000000))

/-- Batch-inference-path bandwidth ratios (stabilizer `+ 1`). -/
def predictBwRatios (g m e : ℚ) : ℚ × ℚ × ℚ :=
  (g / (m + 1), g / (e + 1), m / (e + 1))

/-! ## Country-diversity feature, per code path (claim C4) -/

/-- `df[[gc, mc, ec]].nunique(axis=1)`: number of distinct values among
the three countries. -/
def nunique3 (a b c : String) : ℕ :=
  if a = b then (if a = c then 1 else 2)
  else if a = c ∨ b = c then 2 else 3

/-- Training-path `country_diversity`
(scripts/prepare_features.py line 37): the raw distinct count. -/
def prepareCountryDiversity (gc mc ec : String) : ℚ :=
  (nunique3 gc mc ec : ℚ)

/-- Serving-path `country_diversity` (backend/main.py lines 226-227):
`len(set([guard, middle, exit])) / 3.0`. -/
def backendCountryDiversity (gc mc ec : String) : ℚ :=
  (nunique3 gc mc ec : ℚ) / 3

/-! ## Helper lemmas on rational list sums -/

theorem sum_eq_zero_iff_of_nonneg :
    ∀ (l : List ℚ), (∀ x ∈ l, 0 ≤ x) → (l.sum = 0 ↔ ∀ x ∈ l, x = 0) := by
  intro l
  induction l with
  | nil => intro _; simp
  | cons a t ih =>
    intro h
    have ha : 0 ≤ a := h a (List.mem_cons_self a t)
    have ht : ∀ x ∈ t, 0 ≤ x := fun x hx => h x (List.mem_cons_of_mem a hx)
    have hts : 0 ≤ t.sum := List.sum_nonneg ht
    constructor
    · intro hsum
      rw [List.sum_cons] at hsum
      have ha0 : a = 0 := le_antisymm (by linarith) ha
      have ht0 : t.sum = 0 := by linarith
      intro x hx
      rcases List.mem_cons.mp hx with rfl | hx
      · exact ha0
      · exact ((ih ht).mp ht0) x hx
    · intro hall
      rw [List.sum_cons, hall a (List.mem_cons_self a t),
        (ih ht).mpr (fun x hx => hall x (List.mem_cons_of_mem a hx)), add_zero]

theorem sum_le_length_of_le_one :
    ∀ (l : List ℚ), (∀ x ∈ l, x ≤ 1) → l.sum ≤ (l.length : ℚ) := by
  intro l
  induction l with
  | nil => intro _; simp
  | cons a t ih =>
    intro h
    have ha : a ≤ 1 := h a (List.mem_cons_self a t)
    have ht := ih (fun x hx => h x (List.mem_cons_of_mem a hx))
    rw [List.sum_cons, List.length_cons]
    push_cast
    linarith

theorem sum_eq_length_iff_of_le_one :
    ∀ (l : List ℚ), (∀ x ∈ l, x ≤ 1) → (l.sum = (l.length : ℚ) ↔ ∀ x ∈ l, x = 1) := by
  intro l
  induction l with
  | nil => intro _; simp
  | cons a t ih =>
    intro h
    have ha : a ≤ 1 := h a (List.mem_cons_self a t)
    have ht : ∀ x ∈ t, x ≤ 1 := fun x hx => h x (List.mem_cons_of_mem a hx)
    have hts := sum_le_length_of_le_one t ht
    constructor
    · intro hsum
      rw [List.sum_cons, List.length_cons] at hsum
      push_cast at hsum
      have ha1 : a = 1 := by linarith
      have ht1 : t.sum = (t.length : ℚ) := by linarith
      intro x hx
      rcases List.mem_cons.mp hx with rfl | hx
      · exact ha1
      · exact ((ih ht).mp ht1) x hx
    · intro hall
      rw [List.sum_cons, List.length_cons, hall a (List.mem_cons_self a t),
        (ih ht).mpr (fun x hx => hall x (List.mem_cons_of_mem a hx))]
      push_cast
      ring

/-! ## Helper lemmas on `reciprocalRank` -/

theorem reciprocalRank_nonneg (row : List ℚ) (k : ℕ) (label : ℕ) :
    0 ≤ reciprocalRank row k label := by
  unfold reciprocalRank
  split
  · positivity
  · exact le_refl 0

theorem reciprocalRank_le_one (row : List ℚ) (k : ℕ) (label : ℕ) :
    reciprocalRank row k label ≤ 1 := by
  unfold reciprocalRank
  split
  · rw [div_le_one (by positivity)]
    have : (0 : ℚ) ≤ ((topK row k).indexOf label : ℚ) := by positivity
    linarith
  · norm_num

theorem reciprocalRank_pos_of_mem {row : List ℚ} {k : ℕ} {label : ℕ}
    (h : label ∈ topK row k) : 0 < reciprocalRank row k label := by
  unfold reciprocalRank
  rw [if_pos h]
  positivity

theorem reciprocalRank_eq_zero_iff (row : List ℚ) (k : ℕ) (label : ℕ) :
    reciprocalRank row k label = 0 ↔ label ∉ topK row k := by
  constructor
  · intro h hmem
    exact absurd h (ne_of_gt (reciprocalRank_pos_of_mem hmem))
  · intro h
    unfold reciprocalRank
    rw [if_neg h]

theorem reciprocalRank_eq_one_iff (row : List ℚ) (k : ℕ) (label : ℕ) :
    reciprocalRank row k label = 1 ↔ (topK row k).head? = some label := by
  unfold reciprocalRank
  constructor
  · intro h
    by_cases hmem : label ∈ topK row k
    · rw [if_pos hmem] at h
      have hpos : (0 : ℚ) < ((topK row k).indexOf label : ℚ) + 1 := by positivity
      rw [div_eq_one_iff_eq (ne_of_gt hpos)] at h
      have hq : (((topK row k).indexOf label : ℚ)) = 0 := by linarith
      have hidx : (topK row k).indexOf label = 0 := by exact_mod_cast hq
      cases htk : topK row k with
      | nil => exact absurd hmem (by simp [htk])
      | cons a t =>
        rw [htk] at hidx hmem
        by_cases hal : a = label
        · simp [hal]
        · rw [List.indexOf_cons_ne t hal] at hidx
          exact absurd hidx (Nat.succ_ne_zero _)
    · rw [if_neg hmem] at h
      norm_num at h
  · intro h
    cases htk : topK row k with
    | nil => rw [htk] at h; simp at h
    | cons a t =>
      rw [htk] at h
      simp only [List.head?_cons, Option.some.injEq] at h
      subst h
      rw [if_pos (List.mem_cons_self a t), List.indexOf_cons_self]
      norm_num

/-! ## Helper lemmas on `argmax` and the head of the top-K list -/

theorem max?_spec (l : List ℚ) (h : l ≠ []) :
    ∃ v, l.max? = some v ∧ v ∈ l ∧ ∀ x ∈ l, x ≤ v := by
  cases hl : l.max? with
  | none =>
    cases l with
    | nil => exact absurd rfl h
    | cons a t =>
      have : (a :: t).max?.isSome := List.isSome_max?_of_mem (List.mem_cons_self a t)
      rw [hl] at this
      simp at this
  | some v =>
    refine ⟨v, rfl, List.max?_mem (fun a b => max_choice a b) hl, ?_⟩
    exact fun x hx =>
      (List.max?_le_iff (fun a b c => max_le_iff) hl).mp (le_refl v) x hx

theorem argmax_spec (row : List ℚ) (h : row ≠ []) :
    argmax row < row.length ∧
      ∀ i < row.length, row.getD i 0 ≤ row.getD (argmax row) 0 := by
  obtain ⟨v, hv, hvmem, hmax⟩ := max?_spec row h
  unfold argmax
  rw [hv]
  have hlt : row.indexOf v < row.length := List.indexOf_lt_length.mpr hvmem
  have hgd : row.getD (row.indexOf v) 0 = v := by
    rw [List.getD_eq_getElem row 0 hlt]
    exact List.getElem_indexOf hlt
  refine ⟨hlt, ?_⟩
  intro i hi
  rw [hgd, List.getD_eq_getElem row 0 hi]
  exact hmax _ (List.getElem_mem hi)

theorem uniqueMaxAt_ne_nil {row : List ℚ} {m : ℕ} (h : UniqueMaxAt row m) :
    row ≠ [] := by
  intro hnil
  rw [hnil] at h
  exact Nat.not_lt_zero m h.1

/-- With a unique maximal entry, `np.argmax` finds exactly it. -/
theorem argmax_eq_of_uniqueMax {row : List ℚ} {m : ℕ}
    (h : UniqueMaxAt row m) : argmax row = m := by
  obtain ⟨hlt, hmax⟩ := argmax_spec row (uniqueMaxAt_ne_nil h)
  by_contra hne
  have h1 := h.2 (argmax row) hlt hne
  have h2 := hmax m h.1
  linarith

/-- With a unique maximal entry, the top-1 extracted list is exactly it. -/
theorem topK_one_of_uniqueMax {row : List ℚ} {m : ℕ}
    (h : UniqueMaxAt row m) : topK row 1 = [m] := by
  have hlen : 0 < (argsortDesc row).length := by
    rw [argsortDesc_length]
    exact lt_of_le_of_lt (Nat.zero_le m) h.1
  cases hd : argsortDesc row with
  | nil => rw [hd] at hlen; simp at hlen
  | cons h0 rest =>
    have hpw := argsortDesc_pairwise row
    rw [hd] at hpw
    have hrel : ∀ x ∈ rest, argsortRel row x h0 := (List.pairwise_cons.mp hpw).1
    have hh0 : h0 < row.length := by
      refine mem_argsortDesc.mp ?_
      rw [hd]
      exact List.mem_cons_self h0 rest
    have h0m : h0 = m := by
      by_contra hne
      have hm : m ∈ argsortDesc row := mem_argsortDesc.mpr h.1
      rw [hd] at hm
      rcases List.mem_cons.mp hm with heq | hm
      · exact hne heq.symm
      · have hr := hrel m hm
        have hlt := h.2 h0 hh0 hne
        rcases hr with hc | ⟨hc, _⟩
        · linarith
        · rw [hc] at hlt
          exact lt_irrefl _ hlt
    unfold topK
    rw [hd, h0m]
    rfl

/-- With a unique maximal entry, argmax match and top-1 membership
coincide. -/
theorem argmax_match_iff_mem_topK_one {row : List ℚ} {m lab : ℕ}
    (h : UniqueMaxAt row m) : argmax row = lab ↔ lab ∈ topK row 1 := by
  rw [topK_one_of_uniqueMax h, argmax_eq_of_uniqueMax h, List.mem_singleton]
  exact ⟨fun he => he.symm, fun he => he.symm⟩

/-! ## Explainability output (backend/main.py:get_feature_importance)

The code pairs each feature column with its raw booster importance
(`importance_dict.get(f"f{i}", 0.0)`, a total lookup with default 0,
modelled as a function `ℕ → ℚ`), keeps strictly positive ones, sorts
descending by importance, takes the first `top_n`, divides by the
maximum importance among those kept (1.0 if none), and buckets the
normalized importance: `> 0.7` high, `> 0.4` medium, else low. -/

/-- One entry of the explainability block. -/
structure FeatImp where
  feature : String
  importance : ℚ
  impact : String

/-- The `for i, col in enumerate(feature_columns)` pairing of column
names with raw importances, starting at index `start`. -/
def rawImportances (cols : List String) (imp : ℕ → ℚ) (start : ℕ) :
    List (String × ℚ) :=
  match cols with
  | [] => []
  | c :: t => (c, imp start) :: rawImportances t imp (start + 1)

/-- The `feature_importance` list after the `if importance > 0` filter. -/
def positiveImportances (featureCols : List String) (imp : ℕ → ℚ) :
    List (String × ℚ) :=
  (rawImportances featureCols imp 0).filter (fun t => 0 < t.2)

/-- The descending-by-importance order used by
`feature_importance.sort(key=..., reverse=True)`. -/
def impRel (a b : String × ℚ) : Prop :=
  b.2 ≤ a.2

instance impRelDecidable : DecidableRel impRel := by
  intro a b
  unfold impRel
  infer_instance

instance impRelTotal : IsTotal (String × ℚ) impRel := by
  constructor
  intro a b
  exact (le_total b.2 a.2).imp id id

instance impRelTrans : IsTrans (String × ℚ) impRel := by
  constructor
  intro a b c hab hbc
  exact le_trans hbc hab

/-- `feature_importance` after the descending sort. -/
def sortedImportances (featureCols : List String) (imp : ℕ → ℚ) :
    List (String × ℚ) :=
  List.insertionSort impRel (positiveImportances featureCols imp)

/-- `top_features = feature_importance[:top_n]`. -/
def topImportances (featureCols : List String) (imp : ℕ → ℚ)
    (top_n : ℕ) : List (String × ℚ) :=
  (sortedImportances featureCols imp).take top_n

/-- `max_importance = max([...]) if top_features else 1.0`. -/
def maxImportance (featureCols : List String) (imp : ℕ → ℚ)
    (top_n : ℕ) : ℚ :=
  (((topImportances featureCols imp top_n).map (fun t => t.2)).max?).getD 1

/-- `get_feature_importance(model, feature_values, top_n)` restricted to
the data the claim is about (the feature/importance/impact fields). -/
def get_feature_importance (featureCols : List String) (imp : ℕ → ℚ)
    (top_n : ℕ) : List FeatImp :=
  (topImportances featureCols imp top_n).map (fun t =>
    ⟨t.1, t.2 / maxImportance featureCols imp top_n,
      if 7 / 10 < t.2 / maxImportance featureCols imp top_n then "high"
      else if 2 / 5 < t.2 / maxImportance featureCols imp top_n then "medium"
      else "low"⟩)

/-! ## Claim C1 (code bug in the serving path)

`backend/main.py:engineer_features` documents itself as replicating the
training feature engineering, but uses the stabilizer `1e-6` in the
three bandwidth ratios where `scripts/prepare_features.py` (training)
and `scripts/predict_guard.py` (batch inference) use `1`.  At a
realizable observation (the backend's own default bandwidths
`guard = 8.5`, `middle = 7.0`, `exit = 6.5`) the paths disagree. -/

/-- C1: the training-path and serving-path bandwidth-ratio features
disagree at the backend's own default bandwidths, because the training
path adds `1` to the denominator while the serving path adds `1e-6`;
the batch-inference path agrees with the training path. -/
theorem bw_ratio_stabilizer_divergence :
    prepareBwRatios (17 / 2) 7 (13 / 2) = (17 / 16, 17 / 15, 14 / 15) ∧
    backendBwRatios (17 / 2) 7 (13 / 2) =
      (8500000 / 7000001, 8500000 / 6500001, 7000000 / 6500001) ∧
    prepareBwRatios (17 / 2) 7 (13 / 2) ≠ backendBwRatios (17 / 2) 7 (13 / 2) ∧
    (∀ g m e : ℚ, predictBwRatios g m e = prepareBwRatios g m e) := by
  refine ⟨?_, ?_, ?_, ?_⟩
  · unfold prepareBwRatios
    norm_num
  · unfold backendBwRatios
    norm_num
  · unfold prepareBwRatios backendBwRatios
    intro h
    rw [Prod.ext_iff] at h
    have := h.1
    norm_num at this
  · intro g m e
    unfold predictBwRatios prepareBwRatios
    rfl

/-! ## Claim C2 (corrected: ties are broken by descending class index) -/

/-- C2 counterexample: on the tied probability row `[0.5, 0.5]` with
`k = 2` the extractor returns `[1, 0]`: the two equal-probability
candidates are ordered by descending class index, refuting the claimed
ascending tie-break. -/
theorem topk_tie_order_counterexample :
    topK [(1 : ℚ) / 2, 1 / 2] 2 = [1, 0] ∧
    ¬ List.Pairwise
        (fun i j => [(1 : ℚ) / 2, 1 / 2].getD i 0 = [(1 : ℚ) / 2, 1 / 2].getD j 0 → i < j)
        (topK [(1 : ℚ) / 2, 1 / 2] 2) := by
  have h : topK [(1 : ℚ) / 2, 1 / 2] 2 = [1, 0] := by
    norm_num [topK, argsortDesc, argsort, argsortRel, List.insertionSort,
      List.orderedInsert]
  refine ⟨h, ?_⟩
  rw [h]
  intro hpw
  have := (List.pairwise_cons.mp hpw).1 0 (List.mem_singleton_self 0)
  norm_num at this

/-- C2 amended: for every probability row and every `k ≥ 1` the
extractor returns exactly `min k (number of classes)` candidates,
sorted non-increasing by probability, with any two equal-probability
candidates ordered by descending class index. -/
theorem topk_extraction_spec (p : List ℚ) (k : ℕ) (_hk : 1 ≤ k) :
    (topK p k).length = min k p.length ∧
    List.Pairwise (fun i j => p.getD j 0 ≤ p.getD i 0) (topK p k) ∧
    List.Pairwise (fun i j => p.getD i 0 = p.getD j 0 → j < i) (topK p k) :=
  ⟨topK_length p k, topK_sorted_nonincreasing p k, topK_ties_descending p k⟩

/-- C2 witness: the amended extraction property at the concrete row
`[0.1, 0.7, 0.2]` with `k = 2`. -/
theorem topk_extraction_spec_witness :
    (topK [(1 : ℚ) / 10, 7 / 10, 2 / 10] 2).length =
      min 2 [(1 : ℚ) / 10, 7 / 10, 2 / 10].length ∧
    List.Pairwise
      (fun i j => [(1 : ℚ) / 10, 7 / 10, 2 / 10].getD j 0 ≤
        [(1 : ℚ) / 10, 7 / 10, 2 / 10].getD i 0)
      (topK [(1 : ℚ) / 10, 7 / 10, 2 / 10] 2) ∧
    List.Pairwise
      (fun i j => [(1 : ℚ) / 10, 7 / 10, 2 / 10].getD i 0 =
        [(1 : ℚ) / 10, 7 / 10, 2 / 10].getD j 0 → j < i)
      (topK [(1 : ℚ) / 10, 7 / 10, 2 / 10] 2) :=
  topk_extraction_spec [(1 : ℚ) / 10, 7 / 10, 2 / 10] 2 (by norm_num)

/-! ## Claim C3 (corrected: only the backend path is sentinel-safe) -/

/-- C3 counterexample: with an encoder fit on `["US"]`, encoding the
unseen value `"JP"` on the batch-inference path
(`predict_guard.py` calls `transform` with no guard) raises — modelled
as `none` — instead of returning the sentinel `-1`. -/
theorem unseen_value_raises_on_script_path :
    labelEncoderTransform (labelEncoderFit ["US"]) "JP" = none ∧
    backendEncode (labelEncoderFit ["US"]) "JP" = -1 := by
  constructor
  · simp [labelEncoderTransform, labelEncoderFit, List.insertionSort,
      List.orderedInsert, List.dedup]
  · simp [backendEncode, labelEncoderTransform, labelEncoderFit,
      List.insertionSort, List.orderedInsert, List.dedup]

/-- C3 amended: on the backend serving path an unseen categorical value
encodes to the sentinel `-1` and the operation is total (never raises);
on the batch-inference script path the bare `transform` call raises
(`none`) on an unseen value. -/
theorem sentinel_encoding_spec (classes : List String) (v : String)
    (h : v ∉ classes) :
    backendEncode classes v = -1 ∧ labelEncoderTransform classes v = none := by
  constructor
  · unfold backendEncode labelEncoderTransform
    rw [if_neg h]
  · unfold labelEncoderTransform
    rw [if_neg h]

/-- C3 witness: the amended sentinel property at the concrete encoder
fit on `["US", "US"]` and the unseen value `"JP"`. -/
theorem sentinel_encoding_spec_witness :
    backendEncode (labelEncoderFit ["US", "US"]) "JP" = -1 ∧
    labelEncoderTransform (labelEncoderFit ["US", "US"]) "JP" = none :=
  sentinel_encoding_spec (labelEncoderFit ["US", "US"]) "JP"
    (by simp [labelEncoderFit, List.insertionSort, List.orderedInsert,
      List.dedup])

/-! ## Claim C4 (corrected: only the serving path divides by 3) -/

/-- C4 counterexample: on three distinct countries the training-path
`country_diversity` is the raw distinct count `3`, not a value in
`{1/3, 2/3, 1}` as the claim states for both paths. -/
theorem country_diversity_counterexample :
    prepareCountryDiversity "US" "DE" "FR" = 3 ∧
    ¬(prepareCountryDiversity "US" "DE" "FR" = 1 / 3 ∨
      prepareCountryDiversity "US" "DE" "FR" = 2 / 3 ∨
      prepareCountryDiversity "US" "DE" "FR" = 1) := by
  have h : prepareCountryDiversity "US" "DE" "FR" = 3 := by
    simp [prepareCountryDiversity, nunique3]
  refine ⟨h, ?_⟩
  rw [h]
  norm_num

/-- C4 amended: the serving transform computes the distinct-country
count divided by 3 (hence a value in `{1/3, 2/3, 1}`), while the
training transform computes the raw distinct count (a value in
`{1, 2, 3}`); the two transforms differ by the factor 3. -/
theorem country_diversity_spec (gc mc ec : String) :
    backendCountryDiversity gc mc ec = prepareCountryDiversity gc mc ec / 3 ∧
    (prepareCountryDiversity gc mc ec = 1 ∨
      prepareCountryDiversity gc mc ec = 2 ∨
      prepareCountryDiversity gc mc ec = 3) ∧
    (backendCountryDiversity gc mc ec = 1 / 3 ∨
      backendCountryDiversity gc mc ec = 2 / 3 ∨
      backendCountryDiversity gc mc ec = 1) := by
  unfold backendCountryDiversity prepareCountryDiversity nunique3
  split_ifs <;> norm_num

/-! ## Claim C5 (confirmed: MRR definition and bounds) -/

/-- C5: on a non-empty evaluation set with a matching probability
matrix, `calculate_mrr` returns the mean over examples of `1/rank` when
the true class appears in the example's top-K list and `0` otherwise;
the result lies in `[0, 1]`, is `0` exactly when no true class appears
in its top-K list, and is `1` exactly when every true class heads its
top-K list (rank 1). -/
theorem mrr_spec (y : List ℕ) (P : List (List ℚ)) (k : ℕ)
    (hne : y ≠ []) (hlen : P.length = y.length) :
    ∃ q, calculate_mrr y P k = some q ∧
      q = (((y.zip P).map fun t => reciprocalRank t.2 k t.1).sum) / (y.length : ℚ) ∧
      0 ≤ q ∧ q ≤ 1 ∧
      (q = 0 ↔ ∀ t ∈ y.zip P, t.1 ∉ topK t.2 k) ∧
      (q = 1 ↔ ∀ t ∈ y.zip P, (topK t.2 k).head? = some t.1) := by
  have hn : (0 : ℚ) < (y.length : ℚ) := by
    have := List.length_pos.mpr hne
    exact_mod_cast this
  set L := (y.zip P).map fun t => reciprocalRank t.2 k t.1 with hL
  have hLlen : L.length = y.length := by
    rw [hL, List.length_map, List.length_zip, hlen, min_self]
  have hnonneg : ∀ x ∈ L, 0 ≤ x := by
    intro x hx
    rw [hL] at hx
    obtain ⟨t, _, rfl⟩ := List.mem_map.mp hx
    exact reciprocalRank_nonneg t.2 k t.1
  have hleone : ∀ x ∈ L, x ≤ 1 := by
    intro x hx
    rw [hL] at hx
    obtain ⟨t, _, rfl⟩ := List.mem_map.mp hx
    exact reciprocalRank_le_one t.2 k t.1
  refine ⟨L.sum / (y.length : ℚ), ?_, rfl, ?_, ?_, ?_, ?_⟩
  · unfold calculate_mrr
    rw [if_neg hne]
  · exact div_nonneg (List.sum_nonneg hnonneg) (le_of_lt hn)
  · rw [div_le_one hn, ← hLlen]
    exact sum_le_length_of_le_one L hleone
  · rw [div_eq_zero_iff]
    constructor
    · intro h
      rcases h with h | h
      · intro t ht
        have h0 := (sum_eq_zero_iff_of_nonneg L hnonneg).mp h
          (reciprocalRank t.2 k t.1) (by rw [hL]; exact List.mem_map_of_mem _ ht)
        exact (reciprocalRank_eq_zero_iff t.2 k t.1).mp h0
      · exact absurd h (ne_of_gt hn)
    · intro h
      left
      refine (sum_eq_zero_iff_of_nonneg L hnonneg).mpr ?_
      intro x hx
      rw [hL] at hx
      obtain ⟨t, ht, rfl⟩ := List.mem_map.mp hx
      exact (reciprocalRank_eq_zero_iff t.2 k t.1).mpr (h t ht)
  · rw [div_eq_one_iff_eq (ne_of_gt hn), ← hLlen]
    rw [sum_eq_length_iff_of_le_one L hleone]
    constructor
    · intro h t ht
      have h1 := h (reciprocalRank t.2 k t.1)
        (by rw [hL]; exact List.mem_map_of_mem _ ht)
      exact (reciprocalRank_eq_one_iff t.2 k t.1).mp h1
    · intro h x hx
      rw [hL] at hx
      obtain ⟨t, ht, rfl⟩ := List.mem_map.mp hx
      exact (reciprocalRank_eq_one_iff t.2 k t.1).mpr (h t ht)

/-- C5 witness: the MRR property at the spec's own scenario — one
example with probability row `[0.1, 0.7, 0.2]` and true label 1,
`k = 3`. -/
theorem mrr_spec_witness :
    ∃ q, calculate_mrr [1] [[(1 : ℚ) / 10, 7 / 10, 2 / 10]] 3 = some q ∧
      q = ((([1].zip [[(1 : ℚ) / 10, 7 / 10, 2 / 10]]).map
        fun t => reciprocalRank t.2 3 t.1).sum) / (([1] : List ℕ).length : ℚ) ∧
      0 ≤ q ∧ q ≤ 1 ∧
      (q = 0 ↔ ∀ t ∈ [1].zip [[(1 : ℚ) / 10, 7 / 10, 2 / 10]], t.1 ∉ topK t.2 3) ∧
      (q = 1 ↔ ∀ t ∈ [1].zip [[(1 : ℚ) / 10, 7 / 10, 2 / 10]],
        (topK t.2 3).head? = some t.1) :=
  mrr_spec [1] [[(1 : ℚ) / 10, 7 / 10, 2 / 10]] 3 (by simp) (by simp)

/-! ## Claim C9 (confirmed: MRR is undefined exactly on an empty set) -/

/-- C9: `calculate_mrr` divides by `len(y_true)` unconditionally, so the
computation fails (division by zero, modelled as `none`) precisely when
the label list is empty, and succeeds on every non-empty list. -/
theorem mrr_none_iff_empty (y : List ℕ) (P : List (List ℚ)) (k : ℕ) :
    calculate_mrr y P k = none ↔ y = [] := by
  unfold calculate_mrr
  by_cases h : y = [] <;> simp [h]

/-! ## Claim C6 (corrected: membership coincidence fails on ties)

The `k = 1` branch of `evaluate_topk` scores an example by
`argmax(P[i]) == y[i]`; `np.argmax` returns the smallest index among
tied maxima, while the extractor `np.argsort(...)[::-1][:1]` returns
the largest.  On a row with tied maximal probabilities the two can
disagree; they coincide whenever the row's maximum is unique. -/

/-- C6 counterexample: for true label 0 and probability row
`[0.5, 0.5]` the `k = 1` accuracy (argmax match) is 1, but the true
class is not a member of the extractor's top-1 set, so the claimed
coincidence fails on tied maximal probabilities. -/
theorem top1_tie_counterexample :
    top1_accuracy [0] [[(1 : ℚ) / 2, 1 / 2]] = some 1 ∧
    membershipTopkAccuracy [0] [[(1 : ℚ) / 2, 1 / 2]] 1 = some 0 ∧
    top1_accuracy [0] [[(1 : ℚ) / 2, 1 / 2]] ≠
      membershipTopkAccuracy [0] [[(1 : ℚ) / 2, 1 / 2]] 1 := by
  have htop : topK [(1 : ℚ) / 2, 1 / 2] 1 = [1] := by
    norm_num [topK, argsortDesc, argsort, argsortRel, List.insertionSort,
      List.orderedInsert]
  have hargmax : argmax [(1 : ℚ) / 2, 1 / 2] = 0 := by
    norm_num [argmax, List.max?, List.indexOf, List.findIdx, List.findIdx.go]
  have h1 : top1_accuracy [0] [[(1 : ℚ) / 2, 1 / 2]] = some 1 := by
    unfold top1_accuracy
    rw [if_neg (by simp)]
    norm_num [List.countP, List.countP.go, hargmax]
  have h2 : membershipTopkAccuracy [0] [[(1 : ℚ) / 2, 1 / 2]] 1 = some 0 := by
    unfold membershipTopkAccuracy
    rw [if_neg (by simp)]
    norm_num [List.countP, List.countP.go, htop]
  refine ⟨h1, h2, ?_⟩
  rw [h1, h2]
  simp

/-- C6 amended: the `k = 1` branch computes exactly the fraction of
examples whose true label is the row argmax, and when every probability
row has a unique maximum this coincides with membership of the true
class in the extractor's top-1 set; on tied maxima the coincidence can
fail. -/
theorem top1_consistency_unique_max (y : List ℕ) (P : List (List ℚ))
    (hu : ∀ row ∈ P, ∃ m, UniqueMaxAt row m) :
    top1_accuracy y P = membershipTopkAccuracy y P 1 := by
  unfold top1_accuracy membershipTopkAccuracy
  by_cases hy : y = []
  · rw [if_pos hy, if_pos hy]
  · rw [if_neg hy, if_neg hy]
    have hc : ((y.zip P).countP fun t => argmax t.2 = t.1) =
        ((y.zip P).countP fun t => t.1 ∈ topK t.2 1) := by
      refine List.countP_congr ?_
      intro t ht
      obtain ⟨a, b⟩ := t
      obtain ⟨m, hm⟩ := hu b (List.of_mem_zip ht).2
      have hiff : argmax b = a ↔ a ∈ topK b 1 := argmax_match_iff_mem_topK_one hm
      constructor
      · intro h
        exact decide_eq_true (hiff.mp (of_decide_eq_true h))
      · intro h
        exact decide_eq_true (hiff.mpr (of_decide_eq_true h))
    rw [hc]

/-- C6 witness: the amended consistency at one example with the unique-
maximum row `[0.1, 0.7, 0.2]` and true label 1. -/
theorem top1_consistency_unique_max_witness :
    top1_accuracy [1] [[(1 : ℚ) / 10, 7 / 10, 2 / 10]] =
      membershipTopkAccuracy [1] [[(1 : ℚ) / 10, 7 / 10, 2 / 10]] 1 := by
  refine top1_consistency_unique_max [1] [[(1 : ℚ) / 10, 7 / 10, 2 / 10]] ?_
  intro row hrow
  rw [List.mem_singleton] at hrow
  subst hrow
  refine ⟨1, by norm_num, ?_⟩
  intro i hi hne
  simp only [List.length_cons, List.length_nil] at hi
  interval_cases i
  · norm_num
  · exact absurd rfl hne
  · norm_num

/-! ## Claim C7 (confirmed: encoder round-trip and dense indices) -/

theorem mem_labelEncoderFit {values : List String} {v : String} :
    v ∈ labelEncoderFit values ↔ v ∈ values := by
  unfold labelEncoderFit
  rw [List.mem_insertionSort, List.mem_dedup]

theorem labelEncoderFit_nodup (values : List String) :
    (labelEncoderFit values).Nodup :=
  (List.perm_insertionSort _ _).nodup_iff.mpr (List.nodup_dedup values)

/-- C7: fitting assigns every distinct corpus value a dense index in
`0..N-1` — encoding any corpus value succeeds with an in-range index
that decodes back to the value, and every index below `N` is the code
of some corpus value (no gaps).  The assignment is a pure function of
the corpus, hence deterministic. -/
theorem encoder_roundtrip (values : List String) :
    (labelEncoderFit values).Nodup ∧
    (∀ v ∈ values, ∃ i, labelEncoderTransform (labelEncoderFit values) v = some i ∧
      i < (labelEncoderFit values).length ∧
      labelEncoderInverse (labelEncoderFit values) i = some v) ∧
    (∀ j < (labelEncoderFit values).length, ∃ v ∈ values,
      labelEncoderTransform (labelEncoderFit values) v = some j) := by
  refine ⟨labelEncoderFit_nodup values, ?_, ?_⟩
  · intro v hv
    have hmem : v ∈ labelEncoderFit values := mem_labelEncoderFit.mpr hv
    refine ⟨(labelEncoderFit values).indexOf v, ?_, ?_, ?_⟩
    · unfold labelEncoderTransform
      rw [if_pos hmem]
    · exact List.indexOf_lt_length.mpr hmem
    · unfold labelEncoderInverse
      exact List.indexOf_get? hmem
  · intro j hj
    refine ⟨(labelEncoderFit values).get ⟨j, hj⟩, ?_, ?_⟩
    · exact mem_labelEncoderFit.mp (List.get_mem _ _ hj)
    · unfold labelEncoderTransform
      rw [if_pos (List.get_mem _ _ hj)]
      congr 1
      have := List.indexOf_getElem (labelEncoderFit_nodup values) j hj
      simpa using this

/-- C7 witness: the encoder fit on `["US","DE","FR"]` round-trips the
corpus value `"DE"`. -/
theorem encoder_roundtrip_witness :
    ∃ i, labelEncoderTransform (labelEncoderFit ["US", "DE", "FR"]) "DE" = some i ∧
      i < (labelEncoderFit ["US", "DE", "FR"]).length ∧
      labelEncoderInverse (labelEncoderFit ["US", "DE", "FR"]) i = some "DE" :=
  (encoder_roundtrip ["US", "DE", "FR"]).2.1 "DE" (by simp)

/-! ## Claim C8 (corrected: non-positive `k` is not validated) -/

/-- C8 counterexample: requesting `k = 0` (or negative `k`) is not
rejected — the extraction code runs to completion and silently returns
a list (empty for `k = 0`; dropping the tail for `k = -1`), so a
prediction result is produced rather than an input-validation error. -/
theorem k_validation_counterexample :
    topKZ [(1 : ℚ) / 2, 1 / 4] 0 = [] ∧
    topKZ [(1 : ℚ) / 2, 1 / 4] (-1) = [0] := by
  constructor
  · norm_num [topKZ, pySliceTo]
  · norm_num [topKZ, pySliceTo, argsortDesc, argsort, argsortRel,
      List.insertionSort, List.orderedInsert]

/-- C8 amended: no validation of `k` exists on any prediction path; the
slice `[:k]` silently yields the empty candidate list for `k = 0` and,
for negative `k`, a list of the first `max(0, num_classes + k)`
candidates, with prediction still performed. -/
theorem k_nonpositive_no_validation (p : List ℚ) (k : ℤ) :
    (k = 0 → topKZ p k = []) ∧
    (k < 0 → (topKZ p k).length = ((p.length : ℤ) + k).toNat) := by
  constructor
  · rintro rfl
    unfold topKZ pySliceTo
    simp
  · intro hlt
    unfold topKZ pySliceTo
    rw [if_neg (by omega)]
    rw [List.length_take, argsortDesc_length]
    omega

/-- C8 witness: the amended no-validation property at the concrete row
`[0.5, 0.25]` with `k = -1`. -/
theorem k_nonpositive_no_validation_witness :
    (topKZ [(1 : ℚ) / 2, 1 / 4] (-2)).length =
      ((([(1 : ℚ) / 2, 1 / 4].length : ℤ) + (-2)).toNat) :=
  (k_nonpositive_no_validation [(1 : ℚ) / 2, 1 / 4] (-2)).2 (by norm_num)

/-! ## Claim C10 (confirmed: explainability normalization) -/

theorem rawImportances_mem (imp : ℕ → ℚ) :
    ∀ (cols : List String) (s j : ℕ), j < cols.length →
      (cols.getD j "", imp (s + j)) ∈ rawImportances cols imp s := by
  intro cols
  induction cols with
  | nil =>
    intro s j h
    simp at h
  | cons c t ih =>
    intro s j h
    cases j with
    | zero =>
      simp [rawImportances]
    | succ n =>
      have hn : n < t.length := Nat.lt_of_succ_lt_succ h
      have heq : s + (n + 1) = (s + 1) + n := by omega
      rw [List.getD_cons_succ, heq]
      exact List.mem_cons_of_mem _ (ih (s + 1) n hn)

theorem sortedImportances_sorted (cols : List String) (imp : ℕ → ℚ) :
    List.Sorted impRel (sortedImportances cols imp) :=
  List.sorted_insertionSort _ _

theorem mem_sortedImportances {cols : List String} {imp : ℕ → ℚ}
    {t : String × ℚ} :
    t ∈ sortedImportances cols imp ↔ t ∈ positiveImportances cols imp := by
  unfold sortedImportances
  exact List.mem_insertionSort _

theorem pos_of_mem_positiveImportances {cols : List String} {imp : ℕ → ℚ}
    {t : String × ℚ} (h : t ∈ positiveImportances cols imp) : 0 < t.2 := by
  unfold positiveImportances at h
  have := (List.mem_filter.mp h).2
  exact of_decide_eq_true this

/-- C10: whenever some feature has positive raw importance and at least
one feature is requested, the explainability output is non-empty, its
first (highest-importance) entry has normalized importance exactly 1
and impact bucket "high", and every returned normalized importance lies
in `(0, 1]`. -/
theorem feature_importance_normalization (cols : List String)
    (imp : ℕ → ℚ) (top_n : ℕ) (htn : 1 ≤ top_n)
    (hpos : ∃ i, i < cols.length ∧ 0 < imp i) :
    ∃ f rest, get_feature_importance cols imp top_n = f :: rest ∧
      f.importance = 1 ∧ f.impact = "high" ∧
      ∀ g ∈ get_feature_importance cols imp top_n,
        0 < g.importance ∧ g.importance ≤ 1 := by
  obtain ⟨i, hi, himp⟩ := hpos
  -- the positive-importance list is non-empty
  have hraw : (cols.getD i "", imp i) ∈ rawImportances cols imp 0 := by
    have := rawImportances_mem imp cols 0 i hi
    rwa [Nat.zero_add] at this
  have hfi : (cols.getD i "", imp i) ∈ positiveImportances cols imp := by
    unfold positiveImportances
    exact List.mem_filter.mpr ⟨hraw, decide_eq_true himp⟩
  have hsmem : (cols.getD i "", imp i) ∈ sortedImportances cols imp :=
    mem_sortedImportances.mpr hfi
  cases hs : sortedImportances cols imp with
  | nil =>
    rw [hs] at hsmem
    exact absurd hsmem (List.not_mem_nil _)
  | cons s0 srest =>
    obtain ⟨m, rfl⟩ : ∃ m, top_n = m + 1 := ⟨top_n - 1, by omega⟩
    have htop : topImportances cols imp (m + 1) = s0 :: srest.take m := by
      unfold topImportances
      rw [hs, List.take_succ_cons]
    -- every kept entry has importance at most the head's
    have hle : ∀ t ∈ topImportances cols imp (m + 1), t.2 ≤ s0.2 := by
      intro t ht
      rw [htop] at ht
      rcases List.mem_cons.mp ht with rfl | ht
      · exact le_refl _
      · have hsorted := sortedImportances_sorted cols imp
        rw [hs] at hsorted
        exact (List.pairwise_cons.mp hsorted).1 t (List.take_subset m srest ht)
    -- every kept entry has positive importance
    have hposall : ∀ t ∈ topImportances cols imp (m + 1), 0 < t.2 := by
      intro t ht
      have : t ∈ sortedImportances cols imp := by
        unfold topImportances at ht
        exact List.take_subset _ _ ht
      exact pos_of_mem_positiveImportances (mem_sortedImportances.mp this)
    have hs0pos : 0 < s0.2 := by
      refine hposall s0 ?_
      rw [htop]
      exact List.mem_cons_self _ _
    -- the normalizer equals the head importance
    have hmax : maxImportance cols imp (m + 1) = s0.2 := by
      unfold maxImportance
      rw [htop]
      have hmapne : (List.map (fun t => t.2) (s0 :: srest.take m)) ≠ [] := by
        simp
      obtain ⟨v, hv, hvmem, hvub⟩ := max?_spec _ hmapne
      rw [hv, Option.getD_some]
      have hv_le : v ≤ s0.2 := by
        obtain ⟨t, ht, rfl⟩ := List.mem_map.mp hvmem
        refine hle t ?_
        rw [htop]
        exact ht
      have hs0_le : s0.2 ≤ v := by
        refine hvub s0.2 ?_
        exact List.mem_map_of_mem _ (List.mem_cons_self _ _)
      exact le_antisymm hv_le hs0_le
    -- unfold the output
    have hout : get_feature_importance cols imp (m + 1) =
        (⟨s0.1, s0.2 / maxImportance cols imp (m + 1),
          if 7 / 10 < s0.2 / maxImportance cols imp (m + 1) then "high"
          else if 2 / 5 < s0.2 / maxImportance cols imp (m + 1) then "medium"
          else "low"⟩ : FeatImp) ::
        (srest.take m).map (fun t =>
          ⟨t.1, t.2 / maxImportance cols imp (m + 1),
            if 7 / 10 < t.2 / maxImportance cols imp (m + 1) then "high"
            else if 2 / 5 < t.2 / maxImportance cols imp (m + 1) then "medium"
            else "low"⟩) := by
      unfold get_feature_importance
      rw [htop, List.map_cons]
    have hnorm1 : s0.2 / maxImportance cols imp (m + 1) = 1 := by
      rw [hmax]
      exact div_self (ne_of_gt hs0pos)
    refine ⟨_, _, hout, ?_, ?_, ?_⟩
    · exact hnorm1
    · rw [hnorm1]
      norm_num
    · intro g hg
      rw [get_feature_importance] at hg
      obtain ⟨t, ht, rfl⟩ := List.mem_map.mp hg
      constructor
      · rw [hmax]
        exact div_pos (hposall t ht) hs0pos
      · rw [hmax]
        rw [div_le_one hs0pos]
        exact hle t ht

/-- C10 witness: the explainability property on two features with raw
importances 2 and 5 and `top_n = 5`. -/
theorem feature_importance_normalization_witness :
    ∃ f rest,
      get_feature_importance ["bw_total", "bw_min"]
        (fun i => if i = 0 then 2 else 5) 5 = f :: rest ∧
      f.importance = 1 ∧ f.impact = "high" ∧
      ∀ g ∈ get_feature_importance ["bw_total", "bw_min"]
          (fun i => if i = 0 then 2 else 5) 5,
        0 < g.importance ∧ g.importance ≤ 1 :=
  feature_importance_normalization ["bw_total", "bw_min"]
    (fun i => if i = 0 then 2 else 5) 5 (by norm_num)
    ⟨0, by norm_num, by norm_num⟩

end TorGuard
